import Mathlib

/-!
Shallow embedding of `mqtt_gpio/server.py` (pi-mqtt-gpio), the runtime
orchestrator bridging an MQTT broker and GPIO modules.  Pure pieces of the
Python code (topic parsing, payload matching, the payload-to-effect logic of
the pulse task, the per-iteration logic of the input poller and the reaper)
become Lean functions; the task-spawning initialisation code becomes explicit
state so that Python's late-binding closure semantics is captured faithfully.
-/

/-- Topic fragment constants, server.py lines 20-23. -/
def SET_TOPIC : String := "set"

/-- Topic fragment constant, server.py line 21. -/
def SET_ON_MS_TOPIC : String := "set_on_ms"

/-- Topic fragment constant, server.py line 22. -/
def SET_OFF_MS_TOPIC : String := "set_off_ms"

/-- Topic fragment constant, server.py line 23. -/
def OUTPUT_TOPIC : String := "output"

/-- One entry of `config["digital_outputs"]`: the fields of an output spec the
core reads (`name`, `module`, `pin`, `on_payload`, `off_payload`, `inverted`). -/
structure OutputConfig where
  name : String
  module : String
  pin : Nat
  on_payload : String
  off_payload : String
  inverted : Bool
deriving DecidableEq

/-- One entry of `config["digital_inputs"]`: the fields of an input spec the
core reads (`name`, `module`, `pin`, `pullup`, `pulldown`, `on_payload`,
`off_payload`). -/
structure InputConfig where
  name : String
  module : String
  pin : Nat
  pullup : Bool
  pulldown : Bool
  on_payload : String
  off_payload : String
deriving DecidableEq

/-- Scanner for the non-greedy regex fragment `(.+?)/(.+)$` once at least one
character has been committed to the group: finds the earliest `'/'` that still
leaves a nonempty tail, returning (rest of group 1, tail).  A `'/'` that is the
final character cannot be a split point (`.+$` would be empty) and extending
the non-greedy group past it finds no further characters, so the whole match
fails. -/
def scanSplit : List Char → Option (List Char × List Char)
  | [] => none
  | c :: t =>
    if c = '/' then
      match t with
      | [] => none
      | _ :: _ => some ([], t)
    else (scanSplit t).map (fun p => (c :: p.1, p.2))

/-- Match of `(.+?)/(.+)$` against a character list: group 1 takes at least one
character (any character, `'/'` included, can be its first), then `scanSplit`
finds the earliest viable split slash. -/
def splitName : List Char → Option (List Char × List Char)
  | [] => none
  | c :: t => (scanSplit t).map (fun p => (c :: p.1, p.2))

/-- Literal character-list prefix test (semantics of `List.isPrefixOf`,
restated as a plain recursion for easy equational reasoning). -/
def prefixCheck : List Char → List Char → Bool
  | [], _ => true
  | _ :: _, [] => false
  | a :: as, b :: bs => if a = b then prefixCheck as bs else false

/-- Python `$` also matches just before one trailing newline, so a single
trailing newline is trimmed before the anchored match. -/
def trimNL (cs : List Char) : List Char :=
  if cs.getLast? = some '\n' then cs.dropLast else cs

/-- Anchored match of the pattern `<pat>(.+?)/(.+)$` against `cs`: the literal
prefix must match, and since `.` never matches a newline while the two groups
and the literal `/` must cover the whole remainder, the remainder must be
newline-free; `splitName` then performs the non-greedy split. -/
def output_name_core (pat cs : List Char) : Option (List Char) :=
  if prefixCheck pat cs then
    if '\n' ∈ cs.drop pat.length then none
    else (splitName (cs.drop pat.length)).map (fun p => p.1)
  else none

/-- Translated from server.py lines 256-260:
`re.match("^{}/{}/(.+?)/.+$".format(prefix, OUTPUT_TOPIC), topic)`, returning
`group(1)` or raising `ValueError` (modelled as `none`).  The configured
prefix is interpolated into the pattern verbatim; this embedding covers
prefixes without regex metacharacters. -/
def output_name_from_topic (topic pfx : String) : Option String :=
  (output_name_core (pfx ++ "/" ++ OUTPUT_TOPIC ++ "/").toList (trimNL topic.toList)).map
    String.mk

/-- Python `topic.endswith(suf)`: plain string-suffix test, computed as a
prefix test on the reversed character lists. -/
def hasSuffix (topic suf : String) : Bool :=
  prefixCheck suf.toList.reverse topic.toList.reverse

/-- The gate at server.py lines 219-222: the topic ends with `/set`,
`/set_on_ms` or `/set_off_ms`. -/
def endsWithAction (topic : String) : Bool :=
  hasSuffix topic ("/" ++ SET_TOPIC) || hasSuffix topic ("/" ++ SET_ON_MS_TOPIC)
    || hasSuffix topic ("/" ++ SET_OFF_MS_TOPIC)

/-- The three recognised message actions. -/
inductive MsgAction where
  | set
  | pulseOn
  | pulseOff
deriving DecidableEq

/-- Final topic segment naming each action. -/
def actionStr : MsgAction → String
  | .set => SET_TOPIC
  | .pulseOn => SET_ON_MS_TOPIC
  | .pulseOff => SET_OFF_MS_TOPIC

/-- Topic classification performed by `_handle_mqtt_msg` (server.py lines
219-238), independent of configuration lookup: the action-suffix gate, then
name extraction via `output_name_from_topic`, then the `/set` vs `/set_on_ms`
vs `/set_off_ms` discrimination by `str.endswith`. -/
def classify (pfx topic : String) : Option (MsgAction × String) :=
  if endsWithAction topic then
    match output_name_from_topic topic pfx with
    | none => none
    | some n =>
      if hasSuffix topic ("/" ++ SET_TOPIC) then some (.set, n)
      else if hasSuffix topic ("/" ++ SET_ON_MS_TOPIC) then some (.pulseOn, n)
      else some (.pulseOff, n)
  else none

/-- Modelled from the spec: the exact-segment anchored classification of
section 4.1 — a topic classifies with action `a` and name `n` exactly when it
is literally `<pfx>/output/<n>/<action segment>` with `n` a single nonempty
slash-free segment.  Used only to compare the spec's grammar against the
code's classifier. -/
def classify_spec_one (pfx topic : String) (a : MsgAction) : Option (MsgAction × String) :=
  let pre := (pfx ++ "/" ++ OUTPUT_TOPIC ++ "/").toList
  let suf := ("/" ++ actionStr a).toList
  let cs := topic.toList
  let mid := (cs.drop pre.length).take (cs.length - pre.length - suf.length)
  if cs = pre ++ mid ++ suf ∧ mid ≠ [] ∧ '/' ∉ mid then
    some (a, String.mk mid)
  else none

/-- Modelled from the spec: try the three actions in turn (at most one final
segment can match, so the order is immaterial). -/
def classify_spec (pfx topic : String) : Option (MsgAction × String) :=
  (classify_spec_one pfx topic .set).orElse fun _ =>
    (classify_spec_one pfx topic .pulseOn).orElse fun _ =>
      classify_spec_one pfx topic .pulseOff

/-- Outcome of one dequeued SET command. -/
inductive SetOutcome where
  | write (value : Bool)
  | warnDrop
deriving DecidableEq

/-- Translated from `MqttGpio.set_output`, server.py lines 115-124: compare the
payload against the spec's on-payload, then (elif) its off-payload; write the
matching boolean, otherwise log a warning and drop the command. -/
def set_output (cfg : OutputConfig) (payload : String) : SetOutcome :=
  if payload = cfg.on_payload then .write true
  else if payload = cfg.off_payload then .write false
  else .warnDrop

/-- Result of Python `float(str)`: a finite value, a signed infinity, or nan. -/
inductive PyFloat where
  | finite (q : ℚ)
  | infty (neg : Bool)
  | nan
deriving DecidableEq

/-- Magnitude of a parsed float before the sign is applied. -/
inductive PyMag where
  | finite (q : ℚ)
  | infty
  | nan
deriving DecidableEq

/-- Whitespace characters stripped by Python `float(str)`. -/
def pyIsSpace (c : Char) : Bool :=
  c = ' ' || c = '\t' || c = '\n' || c = '\r' || c = '\x0b' || c = '\x0c'

/-- Strip leading and trailing whitespace. -/
def stripWS (cs : List Char) : List Char :=
  ((cs.dropWhile pyIsSpace).reverse.dropWhile pyIsSpace).reverse

/-- Numeric value of an ASCII digit character. -/
def digitVal (c : Char) : Nat := c.toNat - '0'.toNat

/-- Python digitpart: `digit (["_"] digit)*`, underscores only between digits.
Returns the digits consumed and the unconsumed remainder (an underscore not
followed by a digit stays unconsumed, which fails the overall parse because
nothing may remain). -/
def digitRun (acc : List Nat) : List Char → List Nat × List Char
  | [] => (acc, [])
  | c :: t =>
    if c.isDigit then digitRun (acc ++ [digitVal c]) t
    else if c = '_' ∧ acc ≠ [] then
      match t with
      | [] => (acc, [c])
      | d :: t2 => if d.isDigit then digitRun (acc ++ [digitVal d]) t2 else (acc, c :: d :: t2)
    else (acc, c :: t)

/-- Decimal value of a digit list, most significant first. -/
def natOfDigits (ds : List Nat) : Nat := ds.foldl (fun a d => a * 10 + d) 0

/-- Value of a fractional digit list. -/
def fracVal (ds : List Nat) : ℚ := (natOfDigits ds : ℚ) / ((10 : ℚ) ^ ds.length)

/-- Integer power of ten over ℚ, kept explicit so it is kernel-evaluable. -/
def pow10z : ℤ → ℚ
  | .ofNat n => (10 : ℚ) ^ n
  | .negSucc n => 1 / ((10 : ℚ) ^ (n + 1))

/-- Exponent part after the `e` marker: optional sign then a digitpart that
must consume the whole remainder. -/
def parseExpPart (m : ℚ) (cs : List Char) : Option ℚ :=
  let sc : Int × List Char :=
    match cs with
    | '+' :: t => (1, t)
    | '-' :: t => (-1, t)
    | _ => (1, cs)
  let er := digitRun [] sc.2
  if er.1 = [] ∨ er.2 ≠ [] then none
  else some (m * pow10z (sc.1 * (natOfDigits er.1 : Int)))

/-- Finish a mantissa: end of input, or an exponent marker. -/
def finishNum (m : ℚ) : List Char → Option ℚ
  | [] => some m
  | e :: t => if e = 'e' ∨ e = 'E' then parseExpPart m t else none

/-- Finite-number grammar of `float(str)`:
`digitpart ["." [digitpart]] [exp]` or `"." digitpart [exp]`. -/
def parseFiniteMag (cs : List Char) : Option ℚ :=
  match cs with
  | '.' :: t =>
    let fr := digitRun [] t
    if fr.1 = [] then none else finishNum (fracVal fr.1) fr.2
  | _ =>
    let ir := digitRun [] cs
    if ir.1 = [] then none
    else
      match ir.2 with
      | '.' :: t2 =>
        let fr := digitRun [] t2
        finishNum ((natOfDigits ir.1 : ℚ) + fracVal fr.1) fr.2
      | r => finishNum (natOfDigits ir.1 : ℚ) r

/-- Magnitude after the optional sign: case-insensitive inf/infinity/nan, else
the finite grammar.  ASCII digits only; Python additionally accepts Unicode
decimal digits, which this embedding does not model. -/
def parseMag (cs : List Char) : Option PyMag :=
  let ls := cs.map Char.toLower
  if ls = "inf".toList ∨ ls = "infinity".toList then some .infty
  else if ls = "nan".toList then some .nan
  else (parseFiniteMag cs).map .finite

/-- Apply the leading sign to a parsed magnitude. -/
def applySign (neg : Bool) : PyMag → PyFloat
  | .finite q => .finite (if neg then -q else q)
  | .infty => .infty neg
  | .nan => .nan

/-- Model of Python `float(payload)` (server.py line 242): strip whitespace,
optional sign, then magnitude; `none` models `ValueError`.  Binary rounding to
a double is not modelled: finite values are kept exact as rationals. -/
def float_of_string (s : String) : Option PyFloat :=
  match stripWS s.toList with
  | '+' :: t => (parseMag t).map (applySign false)
  | '-' :: t => (parseMag t).map (applySign true)
  | cs => (parseMag cs).map (applySign false)

/-- Effects a pulse task performs, in program order. -/
inductive TaskEffect where
  | setPin (pin : Nat) (value : Bool)
  | sleepSecs (dur : PyFloat)
  | logWarning
deriving DecidableEq

/-- Python division by 1000 in `secs = float(payload) / 1000`
(server.py line 242). -/
def pyDiv1000 : PyFloat → PyFloat
  | .finite q => .finite (q / 1000)
  | x => x

/-- Translated from the `set_ms` task body, server.py lines 240-250: parse the
payload; on `ValueError` log a warning and return with no write; otherwise
write `value` to the pin, sleep the parsed milliseconds divided by 1000, then
write the complement. -/
def set_ms_effects (cfg : OutputConfig) (value : Bool) (payload : String) : List TaskEffect :=
  match float_of_string payload with
  | none => [.logWarning]
  | some d => [.setPin cfg.pin value, .sleepSecs (pyDiv1000 d), .setPin cfg.pin (!value)]

/-- Translated from server.py lines 236-238:
`value = topic.endswith("/set_on_ms")`, negated when the output spec's
`inverted` flag is set. -/
def pulse_value (onMs inverted : Bool) : Bool :=
  if inverted then !onMs else onMs

/-- Immediate result of `_handle_mqtt_msg` on one message. -/
inductive HandleResult where
  | enqueued (module : String) (cfg : OutputConfig) (payload : String)
  | pulseSpawned (cfg : OutputConfig) (value : Bool) (payload : String)
  | warnedParse
  | ignored
  | raisedKeyError (name : String)
deriving DecidableEq

/-- Lookup in `self.digital_output_configs`, a dict built by
`{x["name"]: x for x in config["digital_outputs"]}` (server.py lines 93-96):
on duplicate names the later entry wins, hence the reversed search. -/
def lookupOutput (outs : List OutputConfig) (name : String) : Option OutputConfig :=
  outs.reverse.find? (fun c => c.name == name)

/-- Translated from `_handle_mqtt_msg`, server.py lines 216-253: the
action-suffix gate; name extraction with `ValueError` caught as a logged
warning; the unguarded `self.digital_output_configs[output_name]` lookup,
whose failure raises `KeyError`; then either enqueueing a SET command on the
module's queue or spawning a `set_ms` pulse task with the computed value.  The
`self.gpio_modules[...]` lookup is taken as total (outputs reference
configured modules, enforced by external config validation). -/
def handle_mqtt_msg (pfx : String) (outs : List OutputConfig) (topic payload : String) :
    HandleResult :=
  if endsWithAction topic then
    match output_name_from_topic topic pfx with
    | none => .warnedParse
    | some name =>
      match lookupOutput outs name with
      | none => .raisedKeyError name
      | some cfg =>
        if hasSuffix topic ("/" ++ SET_TOPIC) then .enqueued cfg.module cfg payload
        else
          .pulseSpawned cfg (pulse_value (hasSuffix topic ("/" ++ SET_ON_MS_TOPIC)) cfg.inverted)
            payload
  else .ignored

/-- Message the poller publishes for a read value: topic
`<prefix>/input/<name>`, payload the on-payload when true else the off-payload
(server.py lines 83-87). -/
def inputMsg (pfx : String) (cfg : InputConfig) (v : Bool) : String × String :=
  (pfx ++ "/input/" ++ cfg.name, if v then cfg.on_payload else cfg.off_payload)

/-- Translated from the `input_loop` body, server.py lines 78-89, run over a
given sequence of successfully read pin values: starting from `last_value =
None`, publish `inputMsg` whenever the read value differs from `last_value`
(any boolean differs from the initial `None`), then set `last_value` to the
read value.  Returns the published (topic, payload) pairs in order. -/
def input_run (pfx : String) (cfg : InputConfig) : Option Bool → List Bool → List (String × String)
  | _, [] => []
  | last, v :: rest =>
    (if some v ≠ last then [inputMsg pfx cfg v] else []) ++ input_run pfx cfg (some v) rest

/-- The poller's publishes over a read sequence, from the initial unset
`last_value = None`. -/
def input_publishes (pfx : String) (cfg : InputConfig) (reads : List Bool) :
    List (String × String) :=
  input_run pfx cfg none reads

/-- Completion state of a background task registered in
`self.unawaited_tasks`. -/
inductive TaskOutcome where
  | running
  | ok
  | failed (e : String)
deriving DecidableEq

/-- A registered background task: identity plus completion state. -/
structure BgTask where
  id : Nat
  outcome : TaskOutcome
deriving DecidableEq

/-- Python `task.done()`. -/
def TaskOutcome.isDone : TaskOutcome → Bool
  | .running => false
  | _ => true

/-- Log line `_LOG.exception("Exception in task: %r:", task)` produces for a
failed task (server.py line 191). -/
def reapLog (t : BgTask) (e : String) : String :=
  "Exception in task " ++ toString t.id ++ ": " ++ e

/-- Translated from one pass of `remove_finished_tasks`, server.py lines
181-194, modelled atomically: collect the finished tasks; awaiting each one
surfaces its failure, which the `except Exception` clause turns into a log
line instead of propagating; finally the registry is filtered down to the
tasks that are not done.  Returns the new registry and the log lines. -/
def reap_step (reg : List BgTask) : List BgTask × List String :=
  let finished := reg.filter (fun t => t.outcome.isDone)
  let logs := finished.filterMap (fun t =>
    match t.outcome with
    | .failed e => some (reapLog t e)
    | _ => none)
  (reg.filter (fun t => !t.outcome.isDone), logs)

/-- Observable result of `_init_digital_outputs`: the modules for which a
queue was created, in dict-insertion order, and the number of `output_loop`
worker tasks spawned. -/
structure OutputsInitState where
  queueModules : List String
  workerCount : Nat
deriving DecidableEq

/-- Translated from `_init_digital_outputs`, server.py lines 93-113: for each
output config in order, when its module has no queue yet, create one (the
local variable `queue` is rebound to it) and spawn one `output_loop` task. -/
def init_digital_outputs (outs : List OutputConfig) : OutputsInitState :=
  outs.foldl
    (fun st oc =>
      if st.queueModules.contains oc.module then st
      else ⟨st.queueModules ++ [oc.module], st.workerCount + 1⟩)
    ⟨[], 0⟩

/-- Python closure semantics for the `output_loop` bodies spawned at server.py
line 113: each body reads the enclosing function's variable `queue` only when
it first runs, after `_init_digital_outputs` has returned, so every worker
consumes the queue created last. -/
def workerConsumedModule (outs : List OutputConfig) : Option String :=
  (init_digital_outputs outs).queueModules.getLast?

/-- Number of worker loops that consume module `m`'s queue at runtime. -/
def queueConsumerCount (outs : List OutputConfig) (m : String) : Nat :=
  if workerConsumedModule outs = some m then (init_digital_outputs outs).workerCount else 0

/-- Translated from `_init_digital_inputs`, server.py lines 65-91: one
`input_loop` task is created per input spec (line 91). -/
def inputLoopCount (ins : List InputConfig) : Nat := ins.length

/-- Python closure semantics for the `input_loop` bodies spawned at server.py
line 91: each body reads the loop variables `in_conf` and `module` only when
it first runs, after the loop has completed, so the task spawned by iteration
`i` serves the spec listed last, whichever iteration spawned it. -/
def inputLoopSpec (ins : List InputConfig) (i : Nat) : Option InputConfig :=
  if i < ins.length then ins.getLast? else none

/-- Concrete output spec on module "m1", used by witnesses and counterexamples. -/
def lamp1 : OutputConfig := ⟨"lamp1", "m1", 5, "ON", "OFF", false⟩

/-- Concrete output spec on a second module "m2". -/
def fan2 : OutputConfig := ⟨"fan2", "m2", 7, "ON", "OFF", false⟩

/-- Concrete input spec, used by witnesses and counterexamples. -/
def in1 : InputConfig := ⟨"in1", "m1", 1, false, false, "ON", "OFF"⟩

/-- Second concrete input spec with a different pin and name. -/
def in2 : InputConfig := ⟨"in2", "m1", 2, false, false, "ON", "OFF"⟩

/-- Payload parsing as a non-negative numeric duration in milliseconds, the
reading used by the C5 claim. -/
def parsesNonNegMs (payload : String) : Prop :=
  ∃ q : ℚ, float_of_string payload = some (.finite q) ∧ 0 ≤ q

/-- Test for a pin-write effect. -/
def TaskEffect.isSetPin : TaskEffect → Bool
  | .setPin _ _ => true
  | _ => false

/-- C1: evaluation of the output-dispatcher initialisation at the failing
configuration of two outputs on distinct modules "m1" and "m2".  One queue is
created per module and one worker loop is spawned per queue, but Python's
late-binding closures make both workers consume the queue created last:
module "m1"'s queue has zero consumers (its SET commands are never applied)
and module "m2"'s queue has two, so the claimed one-queue-one-worker pairing
with at most one in-flight write per module fails. -/
theorem C1_dispatcher_consumers_eval :
    init_digital_outputs [lamp1, fan2] = ⟨["m1", "m2"], 2⟩
      ∧ workerConsumedModule [lamp1, fan2] = some "m2"
      ∧ queueConsumerCount [lamp1, fan2] "m1" = 0
      ∧ queueConsumerCount [lamp1, fan2] "m2" = 2 := by decide

/-- C3: evaluation of the input-poller initialisation at the failing
configuration of two input specs.  Two poller tasks are spawned, but both
late-bind the loop variables `in_conf` and `module`, so the task spawned on
`in1`'s iteration polls `in2`'s pin and publishes under `in2`'s name. -/
theorem C3_poller_spec_eval :
    inputLoopCount [in1, in2] = 2
      ∧ inputLoopSpec [in1, in2] 0 = some in2
      ∧ inputLoopSpec [in1, in2] 0 ≠ some in1 := by decide

/-- C2 counterexample: the topic "home/output/ghost/set" matches the set
grammar but names no configured output; `_handle_mqtt_msg` then raises
`KeyError` out of the receive-and-dispatch loop instead of logging and
discarding, refuting the claim that handling one message never raises. -/
theorem C2_counterexample :
    handle_mqtt_msg "home" [lamp1] "home/output/ghost/set" "ON"
      = .raisedKeyError "ghost" := by decide

/-- C2 amended: message handling escapes with an exception exactly when the
topic carries one of the three action suffixes, parses to an output name, and
that name is not among the configured outputs; for every other topic and
payload the handler completes normally with at most a log line (a parse
warning, an enqueued command, a spawned pulse task, or a silent discard). -/
theorem C2_raise_characterization (pfx : String) (outs : List OutputConfig)
    (topic payload : String) :
    (∃ n, handle_mqtt_msg pfx outs topic payload = .raisedKeyError n)
      ↔ (endsWithAction topic = true
          ∧ ∃ n, output_name_from_topic topic pfx = some n ∧ lookupOutput outs n = none) := by
  cases hA : endsWithAction topic
  · simp [handle_mqtt_msg, hA]
  · cases hN : output_name_from_topic topic pfx
    · simp [handle_mqtt_msg, hA, hN]
    · rename_i name
      cases hL : lookupOutput outs name
      · simp [handle_mqtt_msg, hA, hN, hL]
      · simp only [handle_mqtt_msg, hA, hN, hL, if_true]
        split <;> simp [hN, hL]

/-- C5 counterexample: the claim says every payload that does not parse as a
non-negative duration aborts the pulse with no pin write, but payload "-1" is
negative (hence not a non-negative duration) and the pulse task still writes
the pin. -/
theorem C5_counterexample :
    ¬ (∀ (cfg : OutputConfig) (value : Bool) (payload : String),
        ¬ parsesNonNegMs payload →
          ∀ e ∈ set_ms_effects cfg value payload, e.isSetPin = false) := by
  intro h
  have hparse : float_of_string "-1" = some (.finite (-1)) := by decide
  have hnn : ¬ parsesNonNegMs "-1" := by
    rintro ⟨q, hq, hq0⟩
    rw [hparse] at hq
    simp only [Option.some.injEq, PyFloat.finite.injEq] at hq
    rw [← hq] at hq0
    norm_num at hq0
  have hmem : TaskEffect.setPin lamp1.pin true ∈ set_ms_effects lamp1 true "-1" := by
    simp [set_ms_effects, hparse]
  have := h lamp1 true "-1" hnn (.setPin lamp1.pin true) hmem
  simp [TaskEffect.isSetPin] at this

/-- C5 amended: for every pulse whose payload does not parse as a float at
all, the task logs exactly one warning and stops; no pin write occurs and the
failure affects only this one pulse.  (Payloads parsing as negative floats are
accepted by the code and do write the pin.) -/
theorem C5_parse_failure_no_write (cfg : OutputConfig) (value : Bool) (payload : String)
    (h : float_of_string payload = none) :
    set_ms_effects cfg value payload = [.logWarning] := by
  simp [set_ms_effects, h]

/-- Witness for C5's amended theorem at the concrete non-numeric payload
"abc". -/
theorem C5_parse_failure_no_write_witness :
    set_ms_effects lamp1 true "abc" = [.logWarning] :=
  C5_parse_failure_no_write lamp1 true "abc" (by decide)

/-- C6: for a pulse message whose payload parses to the finite value `d`
(milliseconds), the task computed from `set_on_ms`/`set_off_ms` (`onMs`) and
the spec's `inverted` flag first writes `onMs XOR inverted` to the spec's pin,
sleeps `d / 1000` seconds, writes the complement, and performs nothing else:
non-inverted `set_on_ms` writes true then false after d ms, the inverted
variant writes the opposite values, and `set_off_ms` is the mirror image. -/
theorem C6_pulse_semantics (cfg : OutputConfig) (onMs : Bool) (payload : String) (d : ℚ)
    (h : float_of_string payload = some (.finite d)) :
    set_ms_effects cfg (pulse_value onMs cfg.inverted) payload
      = [.setPin cfg.pin (Bool.xor onMs cfg.inverted), .sleepSecs (.finite (d / 1000)),
        .setPin cfg.pin (!(Bool.xor onMs cfg.inverted))] := by
  cases honMs : onMs <;> cases hinv : cfg.inverted <;>
    simp [set_ms_effects, h, pyDiv1000, pulse_value, hinv]

/-- Witness for C6 at output `lamp1` (inverted=false), action `set_on_ms`,
payload "500". -/
theorem C6_pulse_semantics_witness :
    float_of_string "500" = some (.finite 500)
      ∧ set_ms_effects lamp1 (pulse_value true lamp1.inverted) "500"
        = [.setPin lamp1.pin (Bool.xor true lamp1.inverted), .sleepSecs (.finite (500 / 1000)),
          .setPin lamp1.pin (!(Bool.xor true lamp1.inverted))] :=
  ⟨by decide, C6_pulse_semantics lamp1 true "500" 500 (by decide)⟩

/-- C7: for every output spec and payload handled as a SET command, the worker
writes true exactly when the payload equals the spec's on-payload; it writes
false exactly when the payload misses the on-payload and equals the
off-payload; otherwise it performs no pin write and drops the command with a
warning. -/
theorem C7_set_output_matches (cfg : OutputConfig) (payload : String) :
    (set_output cfg payload = .write true ↔ payload = cfg.on_payload)
      ∧ (set_output cfg payload = .write false
          ↔ (payload ≠ cfg.on_payload ∧ payload = cfg.off_payload))
      ∧ (set_output cfg payload = .warnDrop
          ↔ (payload ≠ cfg.on_payload ∧ payload ≠ cfg.off_payload)) := by
  unfold set_output
  split_ifs with h1 h2 <;> simp_all

/-- C10: the on-payload comparison takes precedence over the off-payload
comparison: when a spec's on- and off-payloads are the same string, a payload
equal to that string always writes true, never false. -/
theorem C10_on_precedence (cfg : OutputConfig) (payload : String)
    (heq : cfg.on_payload = cfg.off_payload) (hp : payload = cfg.on_payload) :
    set_output cfg payload = .write true := by
  unfold set_output
  simp [hp, heq]

/-- Witness for C10 at a concrete spec whose on- and off-payloads are both
"GO". -/
theorem C10_on_precedence_witness :
    set_output ⟨"t", "m1", 1, "GO", "GO", false⟩ "GO" = .write true :=
  C10_on_precedence ⟨"t", "m1", 1, "GO", "GO", false⟩ "GO" rfl rfl

/-- C9: a registered task that has failed is, on the next reap pass, awaited
with its failure logged (the `except Exception` clause keeps it from
propagating) and removed from the registry, while every still-running
registered task stays in the registry and the reap pass itself completes
normally. -/
theorem C9_reap_failed_task (reg : List BgTask) (t : BgTask) (e : String)
    (hmem : t ∈ reg) (hfail : t.outcome = .failed e) :
    t ∉ (reap_step reg).1
      ∧ reapLog t e ∈ (reap_step reg).2
      ∧ ∀ u ∈ reg, u.outcome = .running → u ∈ (reap_step reg).1 := by
  refine ⟨?_, ?_, ?_⟩
  · simp [reap_step, List.mem_filter, hfail, TaskOutcome.isDone]
  · refine List.mem_filterMap.mpr ⟨t, ?_, ?_⟩
    · exact List.mem_filter.mpr ⟨hmem, by simp [hfail, TaskOutcome.isDone]⟩
    · simp [hfail]
  · intro u hu hrun
    exact List.mem_filter.mpr ⟨hu, by simp [hrun, TaskOutcome.isDone]⟩

/-- Witness for C9: a concrete registry with one running and one failed task. -/
theorem C9_reap_failed_task_witness :
    (⟨1, .failed "boom"⟩ : BgTask) ∉ (reap_step [⟨0, .running⟩, ⟨1, .failed "boom"⟩]).1
      ∧ reapLog ⟨1, .failed "boom"⟩ "boom"
          ∈ (reap_step [(⟨0, .running⟩ : BgTask), ⟨1, .failed "boom"⟩]).2
      ∧ ∀ u ∈ [(⟨0, .running⟩ : BgTask), ⟨1, .failed "boom"⟩], u.outcome = .running
          → u ∈ (reap_step [(⟨0, .running⟩ : BgTask), ⟨1, .failed "boom"⟩]).1 :=
  C9_reap_failed_task [⟨0, .running⟩, ⟨1, .failed "boom"⟩] ⟨1, .failed "boom"⟩ "boom"
    (by simp) rfl

theorem destutterNe_head {α : Type} [DecidableEq α] (a : α) (l : List α) :
    List.destutter' (· ≠ ·) a l = a :: (List.destutter' (· ≠ ·) a l).tail := by
  induction l generalizing a with
  | nil => rfl
  | cons b l ih =>
    rw [List.destutter'_cons]
    split_ifs with h
    · simp
    · exact ih a

theorem input_run_destutter (pfx : String) (cfg : InputConfig) (a : Bool) (l : List Bool) :
    input_run pfx cfg (some a) l
      = (List.destutter' (· ≠ ·) a l).tail.map (inputMsg pfx cfg) := by
  induction l generalizing a with
  | nil => rfl
  | cons v r ih =>
    by_cases h : a = v
    · subst h
      simp [input_run, List.destutter'_cons, ih]
    · have h1 : some v ≠ some a := by simpa using Ne.symm h
      simp only [input_run, List.destutter'_cons, if_pos h1, if_pos h, ih, List.tail_cons]
      rw [destutterNe_head v r]
      simp

/-- C8: over every sequence of successfully read pin values, the poller's
publishes are exactly the adjacent-deduplication of the reads mapped to
messages: one publish per observed change, including the very first read
(since `last_value` starts unset), and none across a run of consecutive
identical reads. -/
theorem C8_input_transitions (pfx : String) (cfg : InputConfig) (reads : List Bool) :
    input_publishes pfx cfg reads
      = (reads.destutter (· ≠ ·)).map (inputMsg pfx cfg) := by
  cases reads with
  | nil => rfl
  | cons v r =>
    rw [input_publishes, input_run, List.destutter_cons']
    have hv : (some v ≠ (none : Option Bool)) := by simp
    rw [if_pos hv, input_run_destutter]
    rw [destutterNe_head v r]
    simp

theorem prefixCheck_append (l m : List Char) : prefixCheck l (l ++ m) = true := by
  induction l with
  | nil => rfl
  | cons c t ih => simp [prefixCheck, ih]

theorem scanSplit_exact (n r : List Char) (hn : '/' ∉ n) (hr : r ≠ []) :
    scanSplit (n ++ '/' :: r) = some (n, r) := by
  induction n with
  | nil =>
    cases r with
    | nil => cases hr rfl
    | cons c t => simp [scanSplit]
  | cons c t ih =>
    have hc : c ≠ '/' := fun he => hn (by simp [he])
    simp [scanSplit, hc, ih (fun hm => hn (List.mem_cons_of_mem c hm))]

theorem splitName_exact (n r : List Char) (hne : n ≠ []) (hn : '/' ∉ n.drop 1) (hr : r ≠ []) :
    splitName (n ++ '/' :: r) = some (n, r) := by
  cases n with
  | nil => cases hne rfl
  | cons c t =>
    have ht : '/' ∉ t := by simpa using hn
    simp [splitName, scanSplit_exact t r ht hr]

theorem output_name_core_exact (pat n r : List Char) (hne : n ≠ [])
    (hslash : '/' ∉ n.drop 1) (hnl : '\n' ∉ n) (hrne : r ≠ []) (hrnl : '\n' ∉ r) :
    output_name_core pat (pat ++ (n ++ '/' :: r)) = some n := by
  have hpc := prefixCheck_append pat (n ++ '/' :: r)
  have hdrop : (pat ++ (n ++ '/' :: r)).drop pat.length = n ++ '/' :: r := List.drop_left _ _
  have hnin : '\n' ∉ n ++ '/' :: r := by
    intro h
    rcases List.mem_append.mp h with h1 | h2
    · exact hnl h1
    · rcases List.mem_cons.mp h2 with h3 | h4
      · exact absurd h3 (by decide)
      · exact hrnl h4
  simp [output_name_core, hpc, hdrop, hnin, splitName_exact n r hne hslash hrne]

theorem classify_of_parts (pfx topic n : String) (a : MsgAction)
    (hname : output_name_from_topic topic pfx = some n)
    (hA : hasSuffix topic ("/" ++ actionStr a) = true)
    (hns : a ≠ .set → hasSuffix topic ("/" ++ SET_TOPIC) = false)
    (hno : a = .pulseOff → hasSuffix topic ("/" ++ SET_ON_MS_TOPIC) = false) :
    classify pfx topic = some (a, n) := by
  cases a with
  | set =>
    have h1 : hasSuffix topic ("/" ++ SET_TOPIC) = true := hA
    unfold classify endsWithAction
    rw [h1, hname]
    simp
  | pulseOn =>
    have h1 : hasSuffix topic ("/" ++ SET_TOPIC) = false :=
      hns (fun h => MsgAction.noConfusion h)
    have h2 : hasSuffix topic ("/" ++ SET_ON_MS_TOPIC) = true := hA
    unfold classify endsWithAction
    rw [h1, h2, hname]
    simp
  | pulseOff =>
    have h1 : hasSuffix topic ("/" ++ SET_TOPIC) = false :=
      hns (fun h => MsgAction.noConfusion h)
    have h2 : hasSuffix topic ("/" ++ SET_ON_MS_TOPIC) = false := hno rfl
    have h3 : hasSuffix topic ("/" ++ SET_OFF_MS_TOPIC) = true := hA
    unfold classify endsWithAction
    rw [h1, h2, h3, hname]
    simp

/-- C4 counterexample: the topic "home/output/lamp1/extra/set" deviates from
the claimed grammar (extra segment between name and action), so by the claim
it must be unrecognised, and indeed the spec's exact-segment grammar rejects
it; yet the code classifies it as a SET for "lamp1". -/
theorem C4_counterexample :
    classify "home" "home/output/lamp1/extra/set" = some (.set, "lamp1")
      ∧ classify_spec "home" "home/output/lamp1/extra/set" = none := by decide

theorem prefixCheck_iff (p bs : List Char) :
    prefixCheck p bs = true ↔ ∃ rest, bs = p ++ rest := by
  constructor
  · intro h
    induction p generalizing bs with
    | nil => exact ⟨bs, rfl⟩
    | cons a as ih =>
      cases bs with
      | nil => simp [prefixCheck] at h
      | cons b bs2 =>
        simp only [prefixCheck] at h
        by_cases hab : a = b
        · rw [if_pos hab] at h
          obtain ⟨rest, hrest⟩ := ih bs2 h
          exact ⟨rest, by simp [hrest, hab]⟩
        · rw [if_neg hab] at h
          exact absurd h (by simp)
  · rintro ⟨rest, rfl⟩
    exact prefixCheck_append p rest

theorem hasSuffix_excl_onms_set (t : String)
    (h : hasSuffix t ("/" ++ SET_ON_MS_TOPIC) = true) :
    hasSuffix t ("/" ++ SET_TOPIC) = false := by
  unfold hasSuffix at h ⊢
  obtain ⟨rest, hrest⟩ := (prefixCheck_iff _ _).mp h
  rw [show (("/" ++ SET_ON_MS_TOPIC).toList).reverse
      = ['s', 'm', '_', 'n', 'o', '_', 't', 'e', 's', '/'] from rfl] at hrest
  rw [hrest, show (("/" ++ SET_TOPIC).toList).reverse = ['t', 'e', 's', '/'] from rfl]
  simp [prefixCheck]

theorem hasSuffix_excl_offms_set (t : String)
    (h : hasSuffix t ("/" ++ SET_OFF_MS_TOPIC) = true) :
    hasSuffix t ("/" ++ SET_TOPIC) = false := by
  unfold hasSuffix at h ⊢
  obtain ⟨rest, hrest⟩ := (prefixCheck_iff _ _).mp h
  rw [show (("/" ++ SET_OFF_MS_TOPIC).toList).reverse
      = ['s', 'm', '_', 'f', 'f', 'o', '_', 't', 'e', 's', '/'] from rfl] at hrest
  rw [hrest, show (("/" ++ SET_TOPIC).toList).reverse = ['t', 'e', 's', '/'] from rfl]
  simp [prefixCheck]

theorem hasSuffix_excl_offms_onms (t : String)
    (h : hasSuffix t ("/" ++ SET_OFF_MS_TOPIC) = true) :
    hasSuffix t ("/" ++ SET_ON_MS_TOPIC) = false := by
  unfold hasSuffix at h ⊢
  obtain ⟨rest, hrest⟩ := (prefixCheck_iff _ _).mp h
  rw [show (("/" ++ SET_OFF_MS_TOPIC).toList).reverse
      = ['s', 'm', '_', 'f', 'f', 'o', '_', 't', 'e', 's', '/'] from rfl] at hrest
  rw [hrest, show (("/" ++ SET_ON_MS_TOPIC).toList).reverse
      = ['s', 'm', '_', 'n', 'o', '_', 't', 'e', 's', '/'] from rfl]
  simp [prefixCheck]

theorem scanSplit_sound (cs m r : List Char) (h : scanSplit cs = some (m, r)) :
    cs = m ++ '/' :: r ∧ '/' ∉ m ∧ r ≠ [] := by
  induction cs generalizing m r with
  | nil => simp [scanSplit] at h
  | cons c t ih =>
    by_cases hc : c = '/'
    · subst hc
      cases t with
      | nil => simp [scanSplit] at h
      | cons d t2 =>
        rw [show scanSplit ('/' :: d :: t2) = some ([], d :: t2) from by simp [scanSplit]] at h
        simp only [Option.some.injEq, Prod.mk.injEq] at h
        obtain ⟨hm, hr⟩ := h
        subst hm
        subst hr
        exact ⟨rfl, by simp, by simp⟩
    · rw [show scanSplit (c :: t) = (scanSplit t).map (fun p => (c :: p.1, p.2)) from by
        simp [scanSplit, hc]] at h
      cases hs : scanSplit t with
      | none => rw [hs] at h; simp at h
      | some p =>
        obtain ⟨m2, r2⟩ := p
        rw [hs] at h
        simp only [Option.map_some', Option.some.injEq, Prod.mk.injEq] at h
        obtain ⟨hm, hr⟩ := h
        obtain ⟨hcs, hnm, hrne⟩ := ih m2 r2 hs
        subst hm
        subst hr
        refine ⟨by simp [hcs], ?_, hrne⟩
        intro hmem
        rcases List.mem_cons.mp hmem with h1 | h1
        · exact hc h1.symm
        · exact hnm h1

theorem splitName_sound (cs n r : List Char) (h : splitName cs = some (n, r)) :
    cs = n ++ '/' :: r ∧ n ≠ [] ∧ '/' ∉ n.drop 1 ∧ r ≠ [] := by
  cases cs with
  | nil => simp [splitName] at h
  | cons c t =>
    rw [show splitName (c :: t) = (scanSplit t).map (fun p => (c :: p.1, p.2)) from rfl] at h
    cases hs : scanSplit t with
    | none => rw [hs] at h; simp at h
    | some p =>
      obtain ⟨m2, r2⟩ := p
      rw [hs] at h
      simp only [Option.map_some', Option.some.injEq, Prod.mk.injEq] at h
      obtain ⟨hm, hr⟩ := h
      obtain ⟨hcs, hnm, hrne⟩ := scanSplit_sound t m2 r2 hs
      subst hm
      subst hr
      exact ⟨by simp [hcs], by simp, by simpa using hnm, hrne⟩

theorem output_name_core_iff (pat cs m : List Char) :
    output_name_core pat cs = some m
      ↔ ∃ r, cs = pat ++ (m ++ '/' :: r) ∧ m ≠ [] ∧ '/' ∉ m.drop 1 ∧ '\n' ∉ m
          ∧ r ≠ [] ∧ '\n' ∉ r := by
  constructor
  · intro h
    unfold output_name_core at h
    by_cases hp : prefixCheck pat cs = true
    · rw [if_pos hp] at h
      by_cases hnl : '\n' ∈ cs.drop pat.length
      · rw [if_pos hnl] at h
        exact absurd h (by simp)
      · rw [if_neg hnl] at h
        cases hs : splitName (cs.drop pat.length) with
        | none => rw [hs] at h; simp at h
        | some p =>
          obtain ⟨m2, r⟩ := p
          rw [hs] at h
          simp only [Option.map_some', Option.some.injEq] at h
          subst h
          obtain ⟨rest, hrest⟩ := (prefixCheck_iff pat cs).mp hp
          have hdrop : cs.drop pat.length = rest := by
            rw [hrest]
            exact List.drop_left _ _
          obtain ⟨hcs2, hmne, hslash, hrne⟩ := splitName_sound _ _ _ hs
          rw [hdrop] at hcs2
          refine ⟨r, ?_, hmne, hslash, ?_, hrne, ?_⟩
          · rw [hrest, hcs2]
          · intro hmm
            exact hnl (by rw [hdrop, hcs2]; exact List.mem_append.mpr (Or.inl hmm))
          · intro hmr
            exact hnl (by
              rw [hdrop, hcs2]
              exact List.mem_append.mpr (Or.inr (List.mem_cons_of_mem '/' hmr)))
    · rw [if_neg hp] at h
      exact absurd h (by simp)
  · rintro ⟨r, rfl, hmne, hslash, hmnl, hrne, hrnl⟩
    exact output_name_core_exact pat m r hmne hslash hmnl hrne hrnl

theorem output_name_iff (topic pfx n : String) :
    output_name_from_topic topic pfx = some n
      ↔ ∃ r, trimNL topic.toList
            = (pfx ++ "/" ++ OUTPUT_TOPIC ++ "/").toList ++ (n.toList ++ '/' :: r)
          ∧ n.toList ≠ [] ∧ '/' ∉ n.toList.drop 1 ∧ '\n' ∉ n.toList ∧ r ≠ [] ∧ '\n' ∉ r := by
  unfold output_name_from_topic
  constructor
  · intro h
    cases hc : output_name_core ((pfx ++ "/" ++ OUTPUT_TOPIC ++ "/").toList)
        (trimNL topic.toList) with
    | none => rw [hc] at h; simp at h
    | some m =>
      rw [hc] at h
      simp only [Option.map_some', Option.some.injEq] at h
      have hm : m = n.toList := by rw [← h]; rfl
      rw [hm] at hc
      exact (output_name_core_iff _ _ _).mp hc
  · rintro ⟨r, htl, hmne, hslash, hmnl, hrne, hrnl⟩
    rw [(output_name_core_iff _ _ n.toList).mpr ⟨r, htl, hmne, hslash, hmnl, hrne, hrnl⟩]
    rfl

theorem classify_iff_parts (pfx topic n : String) (a : MsgAction) :
    classify pfx topic = some (a, n)
      ↔ (hasSuffix topic ("/" ++ actionStr a) = true
          ∧ output_name_from_topic topic pfx = some n) := by
  constructor
  · intro h
    by_cases h1 : hasSuffix topic ("/" ++ SET_TOPIC) = true
    · have hA : endsWithAction topic = true := by
        unfold endsWithAction
        rw [h1]
        simp
      cases hN : output_name_from_topic topic pfx with
      | none =>
        rw [show classify pfx topic = none from by simp [classify, hA, hN]] at h
        exact absurd h (by simp)
      | some n2 =>
        rw [show classify pfx topic = some (.set, n2) from by simp [classify, hA, hN, h1]] at h
        simp only [Option.some.injEq, Prod.mk.injEq] at h
        obtain ⟨ha, hn⟩ := h
        subst ha
        subst hn
        exact ⟨h1, rfl⟩
    · by_cases h2 : hasSuffix topic ("/" ++ SET_ON_MS_TOPIC) = true
      · have hA : endsWithAction topic = true := by
          unfold endsWithAction
          rw [h2]
          simp
        cases hN : output_name_from_topic topic pfx with
        | none =>
          rw [show classify pfx topic = none from by simp [classify, hA, hN]] at h
          exact absurd h (by simp)
        | some n2 =>
          rw [show classify pfx topic = some (.pulseOn, n2) from by
            simp [classify, hA, hN, h1, h2]] at h
          simp only [Option.some.injEq, Prod.mk.injEq] at h
          obtain ⟨ha, hn⟩ := h
          subst ha
          subst hn
          exact ⟨h2, rfl⟩
      · by_cases h3 : hasSuffix topic ("/" ++ SET_OFF_MS_TOPIC) = true
        · have hA : endsWithAction topic = true := by
            unfold endsWithAction
            rw [h3]
            simp
          cases hN : output_name_from_topic topic pfx with
          | none =>
            rw [show classify pfx topic = none from by simp [classify, hA, hN]] at h
            exact absurd h (by simp)
          | some n2 =>
            rw [show classify pfx topic = some (.pulseOff, n2) from by
              simp [classify, hA, hN, h1, h2]] at h
            simp only [Option.some.injEq, Prod.mk.injEq] at h
            obtain ⟨ha, hn⟩ := h
            subst ha
            subst hn
            exact ⟨h3, rfl⟩
        · have hA : endsWithAction topic = false := by
            unfold endsWithAction
            rw [Bool.eq_false_iff.mpr h1, Bool.eq_false_iff.mpr h2, Bool.eq_false_iff.mpr h3]
            rfl
          rw [show classify pfx topic = none from by simp [classify, hA]] at h
          exact absurd h (by simp)
  · rintro ⟨hsuf, hname⟩
    refine classify_of_parts pfx topic n a hname hsuf ?_ ?_
    · intro hane
      cases a with
      | set => exact absurd rfl hane
      | pulseOn => exact hasSuffix_excl_onms_set topic hsuf
      | pulseOff => exact hasSuffix_excl_offms_set topic hsuf
    · intro haoff
      cases a with
      | set => exact MsgAction.noConfusion haoff
      | pulseOn => exact MsgAction.noConfusion haoff
      | pulseOff => exact hasSuffix_excl_offms_onms topic hsuf

/-- C4 amended: an exact characterisation of the code's classifier.
Classification is anchored at the configured prefix and keyed on the exact
final action segment, but the name match is non-greedy over an arbitrary
nonempty tail: a topic is classified with action `a` and extracted name `n`
exactly when (1) it ends with `/` followed by `a`'s segment, and (2) after
trimming one trailing newline it reads `<pfx>/output/<n>/<rest>` where `rest`
is nonempty and newline-free and `n` is nonempty, newline-free, and contains
no slash past its first character (the non-greedy group may itself begin with
a slash).  In particular, extra segments between the name and the action are
accepted — `n` is the shortest viable leading group — rather than rejected,
while a missing prefix, a missing action, or a remainder with no name/tail
split never classifies. -/
theorem C4_amended_classification (pfx topic n : String) (a : MsgAction) :
    classify pfx topic = some (a, n)
      ↔ (hasSuffix topic ("/" ++ actionStr a) = true
          ∧ ∃ r : List Char,
              trimNL topic.toList
                = (pfx ++ "/" ++ OUTPUT_TOPIC ++ "/").toList ++ (n.toList ++ '/' :: r)
              ∧ n.toList ≠ [] ∧ '/' ∉ n.toList.drop 1 ∧ '\n' ∉ n.toList
              ∧ r ≠ [] ∧ '\n' ∉ r) := by
  rw [classify_iff_parts pfx topic n a, output_name_iff topic pfx n]
